import Mathlib

/-!
Verification of the huff-rs lexer (src/huff_lexer/src/lib.rs).

The lexer is embedded shallowly: the Rust struct Lexer holds a peekable
character iterator, the raw source, the current span, and two flags.  The
iterator position always equals span.end (consume advances both together),
so the state is modelled with the source as a list of characters plus the
span and the flags.  Machine-level faults (out-of-bounds string slices and
unwrap on a failed parse) are modelled explicitly by an Option result or a
fault constructor, never by truncation.

The external huff_utils contracts (Span, Token, TokenKind, LexicalError)
are not part of src/; they are modelled from the spec, which fixes them as
a half-open offset range with an EOF sentinel, a (kind, span) token pair,
and a two-kind error enumeration.
-/

namespace HuffLexer

/-- Modelled from the spec: the external span contract, a half-open offset
range with fields start and end (written stop here because end is a
reserved word in Lean). -/
structure Span where
  start : Nat
  stop : Nat
deriving DecidableEq, Repr

/-- Modelled from the spec: the reserved sentinel span standing for end of
file in the external span contract (usize::MAX bounds on a 64-bit target). -/
def Span.EOF : Span := ⟨2 ^ 64 - 1, 2 ^ 64 - 1⟩

/-- Modelled from the spec: the external token-kind enumeration consumed by
the lexer.  Text payloads are carried as character lists sliced from the
source. -/
inductive TokenKind where
  | Comment (s : List Char)
  | Div
  | Define
  | Include
  | Macro
  | Function
  | Constant
  | Takes
  | Returns
  | FreeStoragePointer
  | Ident (s : List Char)
  | Assign
  | OpenParen
  | CloseParen
  | OpenBracket
  | CloseBracket
  | OpenBrace
  | CloseBrace
  | Add
  | Sub
  | Mul
  | Comma
  | Num (n : Nat)
  | Whitespace
  | Str (s : List Char)
  | Eof
deriving DecidableEq, Repr

/-- Modelled from the spec: the external token contract, an immutable
(kind, span) pair. -/
structure Token where
  kind : TokenKind
  span : Span
deriving DecidableEq, Repr

/-- Modelled from the spec: the external lexical-error-kind enumeration. -/
inductive LexicalErrorKind where
  | InvalidCharacter (c : Char)
  | UnexpectedEof
deriving DecidableEq, Repr

/-- Modelled from the spec: the external lexical-error contract, a
(kind, span) pair. -/
structure LexicalError where
  kind : LexicalErrorKind
  span : Span
deriving DecidableEq, Repr

/-- The Lexer struct.  The Rust field chars (a peekable character iterator)
always sits exactly span.end characters into the source, because consume is
the only operation advancing it and it increments span.end in step; the
iterator is therefore represented by span.stop indexing into source. -/
structure Lexer where
  source : List Char
  span : Span
  eof : Bool
  eof_returned : Bool
deriving DecidableEq, Repr

/-- Lexer::new. -/
def initLexer (source : List Char) : Lexer :=
  { source := source, span := ⟨0, 0⟩, eof := false, eof_returned := false }

/-- Lexer::current_span. -/
def current_span (l : Lexer) : Span :=
  if l.eof then Span.EOF else l.span

/-- Lexer::peek. -/
def peek (l : Lexer) : Option Char :=
  l.source.get? l.span.stop

/-- Lexer::nthpeek. -/
def nthpeek (l : Lexer) (n : Nat) : Option Char :=
  l.source.get? (l.span.stop + n)

/-- Lexer::peeknchars: widens a copy of the current span by n on the right,
returns the empty string if that exceeds the source length, and otherwise
slices the source over the widened span, i.e. from span.start to
span.end + n.  The Rust slice would fault if span.start exceeded
span.end + n; every call site has span.start less than or equal to
span.end, so the slice is modelled totally. -/
def peeknchars (l : Lexer) (n : Nat) : List Char :=
  if l.span.stop + n > l.source.length then []
  else (l.source.drop l.span.start).take (l.span.stop + n - l.span.start)

/-- Lexer::peekncharsfrom: slices source[from..from+n] with no bounds
check; an out-of-range slice is a fault in Rust, modelled as none. -/
def peekncharsfrom (l : Lexer) (n from_ : Nat) : Option (List Char) :=
  if from_ + n ≤ l.source.length then some ((l.source.drop from_).take n)
  else none

/-- Lexer::try_look_back: on checked_sub success calls
peekncharsfrom (dist - 1) (start - dist); on underflow returns the empty
string.  For dist = 0 the Rust expression dist - 1 underflows usize, a
fault, modelled as none. -/
def try_look_back (l : Lexer) (dist : Nat) : Option (List Char) :=
  if dist = 0 then none
  else if dist ≤ l.span.start then peekncharsfrom l (dist - 1) (l.span.start - dist)
  else some []

/-- Lexer::slice: the source text covered by the current span.  The Rust
slice would fault if span.start exceeded span.end; span.start never does. -/
def slice (l : Lexer) : List Char :=
  (l.source.drop l.span.start).take (l.span.stop - l.span.start)

/-- Lexer::consume: advances the iterator and span.end together. -/
def consume (l : Lexer) : Option Char × Lexer :=
  match l.source.get? l.span.stop with
  | some c => (some c, { l with span := ⟨l.span.start, l.span.stop + 1⟩ })
  | none => (none, l)

/-- Lexer::nconsume. -/
def nconsume (l : Lexer) : Nat → Lexer
  | 0 => l
  | n + 1 => nconsume (consume l).2 n

/-- Lexer::dyn_consume: consumes while the peeked character satisfies the
filter.  The loop advances at most (length - span.end) times, so any fuel
of at least the source length makes the fuelled version agree with the
Rust loop; all call sites pass length + 1. -/
def dyn_consume (f : Char → Bool) : Nat → Lexer → Lexer
  | 0, l => l
  | fuel + 1, l =>
    match peek l with
    | some c => if f c then dyn_consume f fuel (consume l).2 else l
    | none => l

/-- Lexer::seq_consume, inner loop: current_pos starts at span.start (not
at the cursor) and advances in step with the cursor; at each iteration the
window source[current_pos..current_pos+word.len] is compared with the
word.  peekncharsfrom can fault, propagated as none. -/
def seq_consume_go (word : List Char) : Nat → Nat → Lexer → Option Lexer
  | 0, _, _ => none
  | fuel + 1, current_pos, l =>
    match peek l with
    | none => some l
    | some _ =>
      match peekncharsfrom l word.length current_pos with
      | none => none
      | some peeked =>
        if word = peeked then some l
        else seq_consume_go word fuel (current_pos + 1) (consume l).2

/-- Lexer::seq_consume. -/
def seq_consume (word : List Char) (l : Lexer) : Option Lexer :=
  seq_consume_go word (l.source.length + 1) l.span.start l

/-- Lexer::reset: collapses the span to zero width at the cursor. -/
def reset (l : Lexer) : Lexer :=
  { l with span := ⟨l.span.stop, l.span.stop⟩ }

/-- Rust char::is_alphabetic, restricted to the ASCII sources all claims
are evaluated on. -/
def rustIsAlphabetic (c : Char) : Bool := c.isAlpha

/-- Rust char::is_alphanumeric, restricted likewise. -/
def rustIsAlphanumeric (c : Char) : Bool := c.isAlphanum

/-- Rust char::is_ascii_digit. -/
def rustIsAsciiDigit (c : Char) : Bool := c.isDigit

/-- Rust char::is_ascii_whitespace: space, tab, newline, carriage return
and form feed. -/
def rustIsAsciiWhitespace (c : Char) : Bool :=
  c == ' ' || c == '\t' || c == '\n' || c == '\r' || c == '\x0c'

/-- The numeric value of a run of decimal digits. -/
def digitsToNat (s : List Char) : Nat :=
  s.foldl (fun acc c => acc * 10 + (c.toNat - 48)) 0

/-- The largest usize value on the 64-bit target. -/
def usizeMax : Nat := 2 ^ 64 - 1

/-- Rust str::parse::<usize>(): succeeds on a nonempty all-digit string
whose value fits in usize, fails otherwise (the failure is unwrapped at
the call site, a fault). -/
def parseUsize (s : List Char) : Option Nat :=
  if s ≠ [] ∧ s.all rustIsAsciiDigit then
    if digitsToNat s ≤ usizeMax then some (digitsToNat s) else none
  else none

/-- Result of classifying one consumed character inside Iterator::next:
either a token kind with the advanced state, an early-returned error with
its state, or a machine fault (out-of-bounds slice or failed unwrap). -/
inductive TRes where
  | kind (k : TokenKind) (l : Lexer)
  | err (e : LexicalError) (l : Lexer)
  | fault (l : Lexer)
deriving DecidableEq, Repr

/-- The double-quote character. -/
def dquote : Char := Char.ofNat 34

/-- The single-quote character. -/
def squote : Char := Char.ofNat 39

/-- The backslash character. -/
def bslash : Char := Char.ofNat 92

/-- The string-literal loop of Iterator::next, shared by the double- and
single-quote arms (the two Rust copies differ only in the quote
character).  On the closing quote it consumes it and strips the two
delimiters from the slice; a backslash followed by a backslash or by the
quote is consumed as an escape (two characters in total for that
iteration); end of input sets the eof flag and returns UnexpectedEof with
the current span.  Each iteration consumes at least one character, so fuel
length + 1 is sufficient; fuel exhaustion cannot be reached from the call
sites. -/
def str_loop (q : Char) : Nat → Lexer → TRes
  | 0, l => .fault l
  | fuel + 1, l =>
    match peek l with
    | some c =>
      if c = q then
        let l2 := (consume l).2
        let s := slice l2
        if s.length < 2 then .fault l2
        else .kind (.Str ((s.drop 1).dropLast)) l2
      else if c = bslash ∧ (nthpeek l 1 = some bslash ∨ nthpeek l 1 = some q) then
        str_loop q fuel (consume (consume l).2).2
      else
        str_loop q fuel (consume l).2
    | none =>
      .err ⟨.UnexpectedEof, l.span⟩ { l with eof := true }

/-- The '/' arm of Iterator::next: line comment, block comment, or Div. -/
def slashBranch (l : Lexer) : TRes :=
  match peek l with
  | some c2 =>
    if c2 = '/' then
      let l2 := (consume l).2
      let l3 := dyn_consume (fun c => c ≠ '\n') (l2.source.length + 1) l2
      .kind (.Comment (slice l3)) l3
    else if c2 = '*' then
      let l2 := (consume l).2
      match seq_consume ['*', '/'] l2 with
      | some l3 => .kind (.Comment (slice l3)) l3
      | none => .fault l2
    else .kind .Div l
  | none => .kind .Div l

/-- The '#' arm of Iterator::next: exact peek match against #define then
#include, consuming an alphabetic run on success; otherwise the
InvalidCharacter('#') error carrying current_span. -/
def hashBranch (l : Lexer) : TRes :=
  let define_keyword := "#define".toList
  let peeked := peeknchars l (define_keyword.length - 1)
  let fl1 : Option TokenKind × Lexer :=
    if peeked = define_keyword then
      (some .Define, dyn_consume rustIsAlphabetic (l.source.length + 1) l)
    else (none, l)
  let fl2 : Option TokenKind × Lexer :=
    if fl1.1 = none then
      let include_keyword := "#include".toList
      let peeked2 := peeknchars fl1.2 (include_keyword.length - 1)
      if peeked2 = include_keyword then
        (some .Include, dyn_consume rustIsAlphabetic (fl1.2.source.length + 1) fl1.2)
      else fl1
    else fl1
  match fl2 with
  | (some k, l2) => .kind k l2
  | (none, l2) => .err ⟨.InvalidCharacter '#', current_span l2⟩ l2

/-- The bare-keyword priority list of the alphabetic arm. -/
def keys : List (List Char × TokenKind) :=
  [("macro".toList, .Macro), ("function".toList, .Function),
   ("constant".toList, .Constant), ("takes".toList, .Takes),
   ("returns".toList, .Returns)]

/-- The keyword loop of the alphabetic arm: active_key is set to each key
before its test, so after the loop it is the matched key or the last key
tried; on the first match an alphabetic run is consumed and the loop
breaks. -/
def keyLoop : List (List Char × TokenKind) → List Char → Lexer →
    Option TokenKind × List Char × Lexer
  | [], active_key, l => (none, active_key, l)
  | (key, kind) :: rest, _, l =>
    let peeked := peeknchars l (key.length - 1)
    if peeked = key then
      (some kind, key, dyn_consume rustIsAlphabetic (l.source.length + 1) l)
    else keyLoop rest key l

/-- The FREE_STORAGE_POINTER check and the final classification of the
alphabetic arm: an exact peek match consumes the identifier run and up to
one '(' and one ')' and overrides any keyword; otherwise a surviving
keyword stands, and failing that an alphanumeric-or-underscore run is
consumed and classified as Ident. -/
def fspCheck (found0 : Option TokenKind) (l : Lexer) : TRes :=
  let fsp := "FREE_STORAGE_POINTER".toList
  let peeked := peeknchars l (fsp.length - 1)
  let fl : Option TokenKind × Lexer :=
    if peeked = fsp then
      let l2 := dyn_consume (fun c => rustIsAlphabetic c || c == '_')
        (l.source.length + 1) l
      let l3 := if peek l2 = some '(' then (consume l2).2 else l2
      let l4 := if peek l3 = some ')' then (consume l3).2 else l3
      (some .FreeStoragePointer, l4)
    else (found0, l)
  match fl with
  | (some k, l2) => .kind k l2
  | (none, l2) =>
    let l3 := dyn_consume (fun c => rustIsAlphanumeric c || c == '_')
      (l2.source.length + 1) l2
    .kind (.Ident (slice l3)) l3

/-- The alphabetic arm of Iterator::next: keyword loop, then the two
demotion checks (the look-back against the literal text "function", and
the colon check reading one character at the absolute offset equal to the
matched key's length, short-circuited by the Rust or-operator), then the
FREE_STORAGE_POINTER check and final classification. -/
def alphaBranch (l : Lexer) : TRes :=
  let r := keyLoop keys [] l
  let found0 := r.1
  let active_key := r.2.1
  let l2 := r.2.2
  let function_keyword := "function".toList
  match try_look_back l2 (function_keyword.length + 1) with
  | none => .fault l2
  | some lb =>
    if lb = function_keyword then fspCheck none l2
    else
      match peekncharsfrom l2 1 active_key.length with
      | none => .fault l2
      | some nextc =>
        fspCheck (if nextc = [':'] then none else found0) l2

/-- The numeric arm of Iterator::next: consume the ASCII-digit run and
parse it, unwrapping the result (a fault on overflow). -/
def digitBranch (l : Lexer) : TRes :=
  let l2 := dyn_consume rustIsAsciiDigit (l.source.length + 1) l
  match parseUsize (slice l2) with
  | some v => .kind (.Num v) l2
  | none => .fault l2

/-- Classification of one consumed character, mirroring the match arms of
Iterator::next in source order. -/
def tokenize (c : Char) (l : Lexer) : TRes :=
  if c = '/' then slashBranch l
  else if c = '#' then hashBranch l
  else if rustIsAlphabetic c then alphaBranch l
  else if c = '=' then .kind .Assign l
  else if c = '(' then .kind .OpenParen l
  else if c = ')' then .kind .CloseParen l
  else if c = '[' then .kind .OpenBracket l
  else if c = ']' then .kind .CloseBracket l
  else if c = '\x7b' then .kind .OpenBrace l
  else if c = '\x7d' then .kind .CloseBrace l
  else if c = '+' then .kind .Add l
  else if c = '-' then .kind .Sub l
  else if c = '*' then .kind .Mul l
  else if c = ',' then .kind .Comma l
  else if rustIsAsciiDigit c then digitBranch l
  else if rustIsAsciiWhitespace c then
    let l2 := dyn_consume rustIsAsciiWhitespace (l.source.length + 1) l
    .kind .Whitespace l2
  else if c = dquote then str_loop dquote (l.source.length + 1) l
  else if c = squote then str_loop squote (l.source.length + 1) l
  else .err ⟨.InvalidCharacter c, l.span⟩ l

/-- One observable outcome of a call to Iterator::next: a token, an error,
exhaustion (Rust None), or a machine fault. -/
inductive LexStep where
  | tok (t : Token)
  | err (e : LexicalError)
  | exhausted
  | fault
deriving DecidableEq, Repr

/-- Iterator::next: reset the span, try to consume one character and
classify it (setting eof afterwards if the lookahead is empty and building
the token from the current span), or on exhausted input mark eof and
return the one terminal EOF token, then exhaustion forever. -/
def next (l0 : Lexer) : LexStep × Lexer :=
  let l := reset l0
  match consume l with
  | (some c, l1) =>
    match tokenize c l1 with
    | .fault l2 => (.fault, l2)
    | .err e l2 => (.err e, l2)
    | .kind k l2 =>
      let l3 := if peek l2 = none then { l2 with eof := true } else l2
      (.tok ⟨k, l3.span⟩, l3)
  | (none, l1) =>
    let l2 := { l1 with eof := true }
    if l2.eof_returned then (.exhausted, l2)
    else (.tok ⟨.Eof, l2.span⟩, { l2 with eof_returned := true })

/-- Repeated pulls on the lexer, recording each outcome; the sequence ends
at the first exhaustion or fault.  Every productive pull consumes at least
one character and the terminal EOF token is produced at most once, so fuel
length + 2 records the whole sequence. -/
def runGo : Nat → Lexer → List LexStep
  | 0, _ => []
  | n + 1, l =>
    match next l with
    | (.exhausted, _) => [.exhausted]
    | (.fault, _) => [.fault]
    | (o, l') => o :: runGo n l'

/-- The full outcome sequence of lexing a source text. -/
def lexRun (src : List Char) : List LexStep :=
  runGo (src.length + 2) (initLexer src)

/-- The n-character window of the source starting at offset k. -/
def windowAt (src : List Char) (k n : Nat) : List Char :=
  (src.drop k).take n

/-- The source text covered by a span. -/
def sliceSpan (src : List Char) (sp : Span) : List Char :=
  (src.drop sp.start).take (sp.stop - sp.start)

/-- The spans tile the range from a to b: each starts where the previous
one stopped. -/
def chainSpans : Nat → List Span → Nat → Prop
  | a, [], b => a = b
  | a, sp :: rest, b => sp.start = a ∧ chainSpans sp.stop rest b

/-- Whether a step is the UnexpectedEof error. -/
def isUeofStep : LexStep → Bool
  | .err e => e.kind = .UnexpectedEof
  | _ => false

/-- Whether a step is a token. -/
def isTokStep : LexStep → Bool
  | .tok _ => true
  | _ => false

/-- The outcome shape asserted by the spec for an input ending inside an
unterminated string literal: zero or more tokens, then the UnexpectedEof
error, then the terminal EOF token, then exhaustion. -/
def c3shape (run : List LexStep) : Bool :=
  match run.dropWhile isTokStep with
  | .err e :: .tok t :: .exhausted :: [] =>
    e.kind = .UnexpectedEof ∧ t.kind = .Eof
  | _ => false

/-- A step that may precede the UnexpectedEof error: a non-terminal token
or an invalid-character error. -/
def isBenign (x : LexStep) : Prop :=
  (∃ t, x = .tok t ∧ t.kind ≠ .Eof) ∨ ∃ c sp, x = .err ⟨.InvalidCharacter c, sp⟩

/-- State extension: the classification helpers leave the source, the span
start and both flags unchanged, only advance the cursor, and keep it in
bounds when it started in bounds. -/
def Ext (l l' : Lexer) : Prop :=
  l'.source = l.source ∧ l'.span.start = l.span.start ∧ l'.eof = l.eof ∧
  l'.eof_returned = l.eof_returned ∧ l.span.stop ≤ l'.span.stop ∧
  (l.span.stop ≤ l.source.length → l'.span.stop ≤ l.source.length)

theorem Ext.refl (l : Lexer) : Ext l l :=
  ⟨rfl, rfl, rfl, rfl, Nat.le_refl _, fun h => h⟩

theorem Ext.trans {l1 l2 l3 : Lexer} (h1 : Ext l1 l2) (h2 : Ext l2 l3) : Ext l1 l3 := by
  obtain ⟨a1, b1, c1, d1, e1, f1⟩ := h1
  obtain ⟨a2, b2, c2, d2, e2, f2⟩ := h2
  refine ⟨a2.trans a1, b2.trans b1, c2.trans c1, d2.trans d1, e1.trans e2, fun h => ?_⟩
  have := f2 (by rw [a1]; exact f1 h)
  rwa [a1] at this

theorem consume_ext (l : Lexer) : Ext l (consume l).2 := by
  unfold consume
  cases hg : l.source.get? l.span.stop with
  | none => exact Ext.refl l
  | some c =>
    have hlt : l.span.stop < l.source.length := by
      by_contra h
      rw [List.get?_eq_none.mpr (Nat.le_of_not_lt h)] at hg
      exact Option.noConfusion hg
    exact ⟨rfl, rfl, rfl, rfl, Nat.le_succ _, fun _ => hlt⟩

theorem consume_some_stop {l : Lexer} {c : Char} (h : (consume l).1 = some c) :
    (consume l).2.span.stop = l.span.stop + 1 ∧ l.source.get? l.span.stop = some c ∧
    (consume l).2.span.start = l.span.start ∧ (consume l).2.source = l.source ∧
    (consume l).2.eof = l.eof ∧ (consume l).2.eof_returned = l.eof_returned := by
  cases hg : l.source.get? l.span.stop with
  | none =>
    simp only [consume, hg] at h
    exact Option.noConfusion h
  | some c2 =>
    simp only [consume, hg, Option.some.injEq] at h
    subst h
    simp only [consume, hg]
    simp

theorem consume_none {l : Lexer} (h : (consume l).1 = none) :
    (consume l).2 = l ∧ l.source.length ≤ l.span.stop := by
  cases hg : l.source.get? l.span.stop with
  | none =>
    refine ⟨?_, List.get?_eq_none.mp hg⟩
    simp only [consume, hg]
  | some c =>
    simp only [consume, hg] at h
    exact Option.noConfusion h

theorem dyn_consume_ext (f : Char → Bool) (fuel : Nat) (l : Lexer) :
    Ext l (dyn_consume f fuel l) := by
  induction fuel generalizing l with
  | zero => exact Ext.refl l
  | succ n ih =>
    unfold dyn_consume
    cases peek l with
    | none => exact Ext.refl l
    | some c =>
      by_cases hf : f c
      · simp only [hf, if_true]
        exact (consume_ext l).trans (ih (consume l).2)
      · simp only [hf, if_false]
        exact Ext.refl l

theorem seq_consume_go_ext (word : List Char) (fuel : Nat) :
    ∀ cp l l', seq_consume_go word fuel cp l = some l' → Ext l l' := by
  induction fuel with
  | zero => intro cp l l' h; exact Option.noConfusion h
  | succ n ih =>
    intro cp l l' h
    unfold seq_consume_go at h
    cases hp : peek l with
    | none =>
      rw [hp] at h
      simp only [Option.some.injEq] at h
      subst h; exact Ext.refl l
    | some c =>
      rw [hp] at h
      cases hq : peekncharsfrom l word.length cp with
      | none => rw [hq] at h; exact Option.noConfusion h
      | some peeked =>
        rw [hq] at h
        by_cases hw : word = peeked
        · simp only [hw, if_true] at h
          simp only [Option.some.injEq] at h
          subst h; exact Ext.refl l
        · simp only [hw, if_false] at h
          exact (consume_ext l).trans (ih (cp + 1) (consume l).2 l' h)

theorem seq_consume_ext {word : List Char} {l l' : Lexer}
    (h : seq_consume word l = some l') : Ext l l' :=
  seq_consume_go_ext word (l.source.length + 1) l.span.start l l' h

theorem str_loop_cases (q : Char) (fuel : Nat) (l : Lexer) :
    (∃ s l', str_loop q fuel l = .kind (.Str s) l' ∧ Ext l l') ∨
    (∃ sp l', str_loop q fuel l = .err ⟨.UnexpectedEof, sp⟩ l' ∧
      l'.source = l.source ∧ l'.span.start = l.span.start ∧ l'.eof = true ∧
      l'.eof_returned = l.eof_returned ∧ l.span.stop ≤ l'.span.stop ∧
      l.source.length ≤ l'.span.stop ∧
      (l.span.stop ≤ l.source.length → l'.span.stop = l.source.length)) ∨
    (∃ l', str_loop q fuel l = .fault l') := by
  induction fuel generalizing l with
  | zero => exact Or.inr (Or.inr ⟨l, rfl⟩)
  | succ n ih =>
    unfold str_loop
    cases hp : peek l with
    | none =>
      refine Or.inr (Or.inl ⟨l.span, { l with eof := true }, rfl, rfl, rfl, rfl, rfl,
        Nat.le_refl _, List.get?_eq_none.mp hp, fun h => Nat.le_antisymm h (List.get?_eq_none.mp hp)⟩)
    | some c =>
      by_cases hq : c = q
      · simp only [hq, if_true]
        by_cases hlen : (slice (consume l).2).length < 2
        · simp only [hlen, if_true]
          exact Or.inr (Or.inr ⟨(consume l).2, rfl⟩)
        · simp only [hlen, if_false]
          exact Or.inl ⟨_, (consume l).2, rfl, consume_ext l⟩
      · simp only [hq, if_false]
        by_cases hesc : c = bslash ∧ (nthpeek l 1 = some bslash ∨ nthpeek l 1 = some q)
        · simp only [hesc, if_true]
          have hx := consume_ext l
          have hy := consume_ext (consume l).2
          have hxy := hx.trans hy
          rcases ih (consume (consume l).2).2 with ⟨s, l', he, hext⟩ | ⟨sp, l', he, h1, h2, h3, h4, h5, h6, h7⟩ | ⟨l', he⟩
          · exact Or.inl ⟨s, l', he, hxy.trans hext⟩
          · refine Or.inr (Or.inl ⟨sp, l', he, ?_, ?_, h3, ?_, ?_, ?_, ?_⟩)
            · rw [h1, hxy.1]
            · rw [h2, hxy.2.1]
            · rw [h4, hxy.2.2.2.1]
            · exact hxy.2.2.2.2.1.trans h5
            · rw [hxy.1] at h6; exact h6
            · intro hb
              rw [hxy.1] at h7
              exact h7 (hxy.2.2.2.2.2 hb)
          · exact Or.inr (Or.inr ⟨l', he⟩)
        · simp only [hesc, if_false]
          have hx := consume_ext l
          rcases ih (consume l).2 with ⟨s, l', he, hext⟩ | ⟨sp, l', he, h1, h2, h3, h4, h5, h6, h7⟩ | ⟨l', he⟩
          · exact Or.inl ⟨s, l', he, hx.trans hext⟩
          · refine Or.inr (Or.inl ⟨sp, l', he, ?_, ?_, h3, ?_, ?_, ?_, ?_⟩)
            · rw [h1, hx.1]
            · rw [h2, hx.2.1]
            · rw [h4, hx.2.2.2.1]
            · exact hx.2.2.2.2.1.trans h5
            · rw [hx.1] at h6; exact h6
            · intro hb
              rw [hx.1] at h7
              exact h7 (hx.2.2.2.2.2 hb)
          · exact Or.inr (Or.inr ⟨l', he⟩)

theorem keyLoop_ext (ks : List (List Char × TokenKind)) :
    ∀ ak l, Ext l (keyLoop ks ak l).2.2 := by
  induction ks with
  | nil => intro ak l; exact Ext.refl l
  | cons p rest ih =>
    intro ak l
    unfold keyLoop
    by_cases hm : peeknchars l (p.1.length - 1) = p.1
    · simp only [hm, if_true]
      exact dyn_consume_ext _ _ l
    · simp only [hm, if_false]
      exact ih p.1 l

theorem fspCheck_cases (found0 : Option TokenKind) (l : Lexer)
    (hf : found0 ≠ some .Eof) :
    ∃ k l', fspCheck found0 l = .kind k l' ∧ Ext l l' ∧ k ≠ .Eof := by
  unfold fspCheck
  by_cases hm : peeknchars l ("FREE_STORAGE_POINTER".toList.length - 1) = "FREE_STORAGE_POINTER".toList
  · simp only [hm, if_true]
    set l2 := dyn_consume (fun c => rustIsAlphabetic c || c == '_') (l.source.length + 1) l with hl2
    have e2 : Ext l l2 := dyn_consume_ext _ _ l
    set l3 := if peek l2 = some '(' then (consume l2).2 else l2 with hl3
    have e3 : Ext l2 l3 := by
      rw [hl3]; split
      · exact consume_ext l2
      · exact Ext.refl l2
    set l4 := if peek l3 = some ')' then (consume l3).2 else l3 with hl4
    have e4 : Ext l3 l4 := by
      rw [hl4]; split
      · exact consume_ext l3
      · exact Ext.refl l3
    exact ⟨.FreeStoragePointer, l4, rfl, (e2.trans e3).trans e4, by simp⟩
  · simp only [hm, if_false]
    cases found0 with
    | some k =>
      refine ⟨k, l, rfl, Ext.refl l, ?_⟩
      intro hk
      exact hf (by rw [hk])
    | none =>
      refine ⟨_, _, rfl, (dyn_consume_ext _ _ l), by simp⟩

theorem slashBranch_cases (l : Lexer) :
    (∃ k l', slashBranch l = .kind k l' ∧ Ext l l' ∧ k ≠ .Eof) ∨
    (∃ l', slashBranch l = .fault l') := by
  unfold slashBranch
  cases peek l with
  | none => exact Or.inl ⟨.Div, l, rfl, Ext.refl l, by simp⟩
  | some c2 =>
    by_cases h1 : c2 = '/'
    · simp only [h1, if_true]
      refine Or.inl ⟨_, _, rfl, ?_, by simp⟩
      exact (consume_ext l).trans (dyn_consume_ext _ _ _)
    · simp only [h1, if_false]
      by_cases h2 : c2 = '*'
      · simp only [h2, if_true]
        cases hs : seq_consume ['*', '/'] (consume l).2 with
        | some l3 =>
          refine Or.inl ⟨_, _, rfl, ?_, by simp⟩
          exact (consume_ext l).trans (seq_consume_ext hs)
        | none => exact Or.inr ⟨(consume l).2, rfl⟩
      · simp only [h2, if_false]
        exact Or.inl ⟨.Div, l, rfl, Ext.refl l, by simp⟩

theorem hashBranch_cases (l : Lexer) :
    (∃ k l', hashBranch l = .kind k l' ∧ Ext l l' ∧ k ≠ .Eof) ∨
    (hashBranch l = .err ⟨.InvalidCharacter '#', current_span l⟩ l) := by
  unfold hashBranch
  by_cases h1 : peeknchars l 6 = ['#', 'd', 'e', 'f', 'i', 'n', 'e']
  · refine Or.inl ⟨.Define, dyn_consume rustIsAlphabetic (l.source.length + 1) l,
      ?_, dyn_consume_ext _ _ l, by simp⟩
    simp [h1]
  · by_cases h2 : peeknchars l 7 = ['#', 'i', 'n', 'c', 'l', 'u', 'd', 'e']
    · refine Or.inl ⟨.Include, dyn_consume rustIsAlphabetic (l.source.length + 1) l,
        ?_, dyn_consume_ext _ _ l, by simp⟩
      simp [h1, h2]
    · refine Or.inr ?_
      simp [h1, h2]

theorem keyLoop_no_eof (ks : List (List Char × TokenKind)) :
    ∀ ak lx, (∀ p ∈ ks, p.2 ≠ TokenKind.Eof) →
    (keyLoop ks ak lx).1 ≠ some TokenKind.Eof := by
  induction ks with
  | nil => intro ak lx _; simp [keyLoop]
  | cons p rest ih =>
    intro ak lx hmem
    unfold keyLoop
    by_cases hm : peeknchars lx (p.1.length - 1) = p.1
    · simp only [hm, if_true]
      intro hc
      simp only [Option.some.injEq] at hc
      exact hmem p (by simp) hc
    · simp only [hm, if_false]
      exact ih p.1 lx (fun q hq => hmem q (by simp [hq]))

theorem alphaBranch_cases (l : Lexer) :
    (∃ k l', alphaBranch l = .kind k l' ∧ Ext l l' ∧ k ≠ .Eof) ∨
    (∃ l', alphaBranch l = .fault l') := by
  have e2' := keyLoop_ext keys [] l
  have hf0' := keyLoop_no_eof keys [] l (by decide)
  rcases hk : keyLoop keys [] l with ⟨found0, active_key, l2⟩
  rw [hk] at e2' hf0'
  simp only at e2' hf0'
  simp only [alphaBranch, hk]
  split
  · exact Or.inr ⟨l2, rfl⟩
  · rename_i lb ht
    by_cases hlb : lb = "function".toList
    · simp only [hlb, if_true]
      obtain ⟨k, l', he, hext, hne⟩ := fspCheck_cases none l2 (by simp)
      exact Or.inl ⟨k, l', he, e2'.trans hext, hne⟩
    · rw [if_neg hlb]
      split
      · exact Or.inr ⟨l2, rfl⟩
      · rename_i nextc hp
        obtain ⟨k, l', he, hext, hne⟩ :=
          fspCheck_cases (if nextc = [':'] then none else found0) l2 (by
            split
            · simp
            · exact hf0')
        exact Or.inl ⟨k, l', he, e2'.trans hext, hne⟩

theorem digitBranch_cases (l : Lexer) :
    (∃ k l', digitBranch l = .kind k l' ∧ Ext l l' ∧ k ≠ .Eof) ∨
    (∃ l', digitBranch l = .fault l') := by
  unfold digitBranch
  simp only
  cases hp : parseUsize (slice (dyn_consume rustIsAsciiDigit (l.source.length + 1) l)) with
  | some v =>
    exact Or.inl ⟨.Num v, dyn_consume rustIsAsciiDigit (l.source.length + 1) l,
      rfl, dyn_consume_ext _ _ l, by simp⟩
  | none =>
    exact Or.inr ⟨dyn_consume rustIsAsciiDigit (l.source.length + 1) l, rfl⟩

/-- Classification of all outcomes of tokenize: a non-EOF token kind with
an extended state, an invalid-character error carrying the dispatched
character and an unchanged state, the UnexpectedEof error with the cursor
at end of input and the eof flag forced, or a fault. -/
theorem tokenize_cases (c : Char) (l : Lexer) :
    (∃ k l', tokenize c l = .kind k l' ∧ Ext l l' ∧ k ≠ .Eof) ∨
    (∃ sp, tokenize c l = .err ⟨.InvalidCharacter c, sp⟩ l) ∨
    (∃ sp l', tokenize c l = .err ⟨.UnexpectedEof, sp⟩ l' ∧
      l'.source = l.source ∧ l'.span.start = l.span.start ∧ l'.eof = true ∧
      l'.eof_returned = l.eof_returned ∧ l.span.stop ≤ l'.span.stop ∧
      l.source.length ≤ l'.span.stop ∧
      (l.span.stop ≤ l.source.length → l'.span.stop = l.source.length)) ∨
    (∃ l', tokenize c l = .fault l') := by
  unfold tokenize
  by_cases h : c = '/'
  · simp only [h, if_true]
    rcases slashBranch_cases l with ⟨k, l', he, hx, hn⟩ | ⟨l', he⟩
    · exact Or.inl ⟨k, l', he, hx, hn⟩
    · exact Or.inr (Or.inr (Or.inr ⟨l', he⟩))
  all_goals simp only [h, if_false]; clear h
  by_cases h : c = '#'
  · simp only [h, if_true]
    rcases hashBranch_cases l with ⟨k, l', he, hx, hn⟩ | he
    · exact Or.inl ⟨k, l', he, hx, hn⟩
    · subst h
      exact Or.inr (Or.inl ⟨current_span l, he⟩)
  all_goals simp only [h, if_false]; clear h
  by_cases h : rustIsAlphabetic c = true
  · simp only [h, if_true]
    rcases alphaBranch_cases l with ⟨k, l', he, hx, hn⟩ | ⟨l', he⟩
    · exact Or.inl ⟨k, l', he, hx, hn⟩
    · exact Or.inr (Or.inr (Or.inr ⟨l', he⟩))
  all_goals simp only [h, if_false]; clear h
  by_cases h : c = '='
  · simp only [h, if_true]
    exact Or.inl ⟨.Assign, l, rfl, Ext.refl l, by simp⟩
  all_goals simp only [h, if_false]; clear h
  by_cases h : c = '('
  · simp only [h, if_true]
    exact Or.inl ⟨.OpenParen, l, rfl, Ext.refl l, by simp⟩
  all_goals simp only [h, if_false]; clear h
  by_cases h : c = ')'
  · simp only [h, if_true]
    exact Or.inl ⟨.CloseParen, l, rfl, Ext.refl l, by simp⟩
  all_goals simp only [h, if_false]; clear h
  by_cases h : c = '['
  · simp only [h, if_true]
    exact Or.inl ⟨.OpenBracket, l, rfl, Ext.refl l, by simp⟩
  all_goals simp only [h, if_false]; clear h
  by_cases h : c = ']'
  · simp only [h, if_true]
    exact Or.inl ⟨.CloseBracket, l, rfl, Ext.refl l, by simp⟩
  all_goals simp only [h, if_false]; clear h
  by_cases h : c = '\x7b'
  · simp only [h, if_true]
    exact Or.inl ⟨.OpenBrace, l, rfl, Ext.refl l, by simp⟩
  all_goals simp only [h, if_false]; clear h
  by_cases h : c = '\x7d'
  · simp only [h, if_true]
    exact Or.inl ⟨.CloseBrace, l, rfl, Ext.refl l, by simp⟩
  all_goals simp only [h, if_false]; clear h
  by_cases h : c = '+'
  · simp only [h, if_true]
    exact Or.inl ⟨.Add, l, rfl, Ext.refl l, by simp⟩
  all_goals simp only [h, if_false]; clear h
  by_cases h : c = '-'
  · simp only [h, if_true]
    exact Or.inl ⟨.Sub, l, rfl, Ext.refl l, by simp⟩
  all_goals simp only [h, if_false]; clear h
  by_cases h : c = '*'
  · simp only [h, if_true]
    exact Or.inl ⟨.Mul, l, rfl, Ext.refl l, by simp⟩
  all_goals simp only [h, if_false]; clear h
  by_cases h : c = ','
  · simp only [h, if_true]
    exact Or.inl ⟨.Comma, l, rfl, Ext.refl l, by simp⟩
  all_goals simp only [h, if_false]; clear h
  by_cases h : rustIsAsciiDigit c = true
  · simp only [h, if_true]
    rcases digitBranch_cases l with ⟨k, l', he, hx, hn⟩ | ⟨l', he⟩
    · exact Or.inl ⟨k, l', he, hx, hn⟩
    · exact Or.inr (Or.inr (Or.inr ⟨l', he⟩))
  all_goals simp only [h, if_false]; clear h
  by_cases h : rustIsAsciiWhitespace c = true
  · simp only [h, if_true]
    exact Or.inl ⟨.Whitespace, _, rfl, dyn_consume_ext _ _ l, by simp⟩
  all_goals simp only [h, if_false]; clear h
  by_cases h : c = dquote
  · simp only [h, if_true]
    rcases str_loop_cases dquote (l.source.length + 1) l with
      ⟨s, l', he, hx⟩ | ⟨sp, l', he, h1, h2, h3, h4, h5, h6, h7⟩ | ⟨l', he⟩
    · exact Or.inl ⟨.Str s, l', he, hx, by simp⟩
    · exact Or.inr (Or.inr (Or.inl ⟨sp, l', he, h1, h2, h3, h4, h5, h6, h7⟩))
    · exact Or.inr (Or.inr (Or.inr ⟨l', he⟩))
  all_goals simp only [h, if_false]; clear h
  by_cases h : c = squote
  · simp only [h, if_true]
    rcases str_loop_cases squote (l.source.length + 1) l with
      ⟨s, l', he, hx⟩ | ⟨sp, l', he, h1, h2, h3, h4, h5, h6, h7⟩ | ⟨l', he⟩
    · exact Or.inl ⟨.Str s, l', he, hx, by simp⟩
    · exact Or.inr (Or.inr (Or.inl ⟨sp, l', he, h1, h2, h3, h4, h5, h6, h7⟩))
    · exact Or.inr (Or.inr (Or.inr ⟨l', he⟩))
  all_goals simp only [h, if_false]; clear h
  exact Or.inr (Or.inl ⟨l.span, rfl⟩)

theorem next_end_tok (l : Lexer) (h : l.source.length ≤ l.span.stop)
    (hr : l.eof_returned = false) :
    next l = (.tok ⟨.Eof, ⟨l.span.stop, l.span.stop⟩⟩,
      { source := l.source, span := ⟨l.span.stop, l.span.stop⟩, eof := true,
        eof_returned := true }) := by
  simp [next, reset, consume, List.get?_eq_none.mpr h, List.getElem?_eq_none h, hr]

theorem next_end_exh (l : Lexer) (h : l.source.length ≤ l.span.stop)
    (hr : l.eof_returned = true) :
    next l = (.exhausted,
      { source := l.source, span := ⟨l.span.stop, l.span.stop⟩, eof := true,
        eof_returned := true }) := by
  simp [next, reset, consume, List.get?_eq_none.mpr h, List.getElem?_eq_none h, hr]

/-- Classification of one pull on a well-formed state: a token (the
terminal EOF token exactly when the input is exhausted, else a non-EOF
token spanning exactly the consumed characters), an invalid-character
error leaving the cursor one past the offending character and both flags
unchanged, the UnexpectedEof error with the cursor at end of input and eof
forced, a fault, or exhaustion (only after the EOF token was returned). -/
theorem next_cases (l : Lexer) (h : l.span.stop ≤ l.source.length) :
    (∃ t l', next l = (.tok t, l') ∧ l'.source = l.source ∧
       l'.span.stop ≤ l.source.length ∧
       ((t.kind = .Eof ∧ t.span = ⟨l.span.stop, l.span.stop⟩ ∧
         l.span.stop = l.source.length ∧ l.eof_returned = false ∧
         l'.eof_returned = true ∧ l'.span.stop = l.span.stop) ∨
        (t.kind ≠ .Eof ∧ t.span = ⟨l.span.stop, l'.span.stop⟩ ∧
         l.span.stop < l'.span.stop ∧ l'.eof_returned = l.eof_returned))) ∨
    (∃ c sp l', next l = (.err ⟨.InvalidCharacter c, sp⟩, l') ∧ l'.source = l.source ∧
       l'.span.stop = l.span.stop + 1 ∧ l.span.stop < l.source.length ∧
       l'.span.stop ≤ l.source.length ∧ l'.eof = l.eof ∧
       l'.eof_returned = l.eof_returned ∧ l.source.get? l.span.stop = some c) ∨
    (∃ sp l', next l = (.err ⟨.UnexpectedEof, sp⟩, l') ∧ l'.source = l.source ∧
       l'.span.stop = l.source.length ∧ l.span.stop < l.source.length ∧
       l'.eof = true ∧ l'.eof_returned = l.eof_returned) ∨
    (∃ l', next l = (.fault, l')) ∨
    (∃ l', next l = (.exhausted, l') ∧ l.eof_returned = true ∧
       l.span.stop = l.source.length) := by
  by_cases hend : l.source.length ≤ l.span.stop
  · have heq : l.span.stop = l.source.length := Nat.le_antisymm h hend
    cases hr : l.eof_returned with
    | false =>
      refine Or.inl ⟨⟨.Eof, ⟨l.span.stop, l.span.stop⟩⟩, _, next_end_tok l hend hr,
        rfl, by simp [heq], Or.inl ⟨rfl, rfl, heq, rfl, rfl, rfl⟩⟩
    | true =>
      exact Or.inr (Or.inr (Or.inr (Or.inr ⟨_, next_end_exh l hend hr, rfl, heq⟩)))
  · have hlt : l.span.stop < l.source.length := Nat.lt_of_not_le hend
    cases hg : l.source.get? l.span.stop with
    | none =>
      exact absurd (List.get?_eq_none.mp hg) hend
    | some c =>
      have hcr : consume (reset l) =
          (some c,
            { source := l.source, span := ⟨l.span.stop, l.span.stop + 1⟩,
              eof := l.eof, eof_returned := l.eof_returned }) := by
        have hg2 : l.source[l.span.stop]? = some c := by
          rw [← List.get?_eq_getElem?]; exact hg
        simp [consume, reset, hg, hg2]
      set l1 : Lexer :=
        { source := l.source, span := ⟨l.span.stop, l.span.stop + 1⟩,
          eof := l.eof, eof_returned := l.eof_returned } with hl1
      have hnext : next l = (match tokenize c l1 with
        | .fault l2 => (.fault, l2)
        | .err e l2 => (.err e, l2)
        | .kind k l2 =>
          let l3 := if peek l2 = none then { l2 with eof := true } else l2
          (.tok ⟨k, l3.span⟩, l3)) := by
        simp only [next, hcr]
      have hstop1 : l1.span.stop = l.span.stop + 1 := rfl
      rcases tokenize_cases c l1 with ⟨k, l2, he, hx, hn⟩ | ⟨sp, he⟩ |
        ⟨sp, l2, he, h1, h2, h3, h4, h5, h6, h7⟩ | ⟨l2, he⟩
      · rw [he] at hnext
        set l3 := if peek l2 = none then { l2 with eof := true } else l2 with hl3
        have hsame : l3.source = l2.source ∧ l3.span = l2.span ∧
            l3.eof_returned = l2.eof_returned := by
          rw [hl3]; split <;> simp
        refine Or.inl ⟨⟨k, l3.span⟩, l3, hnext, ?_, ?_, Or.inr ⟨hn, ?_, ?_, ?_⟩⟩
        · rw [hsame.1, hx.1]
        · have h2 := hx.2.2.2.2.2 (Nat.succ_le_of_lt hlt)
          rw [hsame.2.1]
          exact h2
        · rw [hsame.2.1]
          have hst : l2.span.start = l.span.stop := hx.2.1
          exact congrArg₂ Span.mk hst rfl
        · rw [hsame.2.1]
          calc l.span.stop < l.span.stop + 1 := Nat.lt_succ_self _
            _ ≤ l2.span.stop := hx.2.2.2.2.1
        · rw [hsame.2.2, hx.2.2.2.1]
      · rw [he] at hnext
        exact Or.inr (Or.inl ⟨c, sp, l1, hnext, rfl, rfl, hlt,
          Nat.succ_le_of_lt hlt, rfl, rfl, rfl⟩)
      · rw [he] at hnext
        refine Or.inr (Or.inr (Or.inl ⟨sp, l2, hnext, h1, ?_, hlt, h3, h4⟩))
        exact h7 (by rw [hstop1]; exact hlt)
      · rw [he] at hnext
        exact Or.inr (Or.inr (Or.inr (Or.inl ⟨l2, hnext⟩)))

theorem runGo_succ_tok {l l' : Lexer} {t : Token} {n : Nat}
    (h : next l = (.tok t, l')) : runGo (n + 1) l = .tok t :: runGo n l' := by
  simp [runGo, h]

theorem runGo_succ_err {l l' : Lexer} {e : LexicalError} {n : Nat}
    (h : next l = (.err e, l')) : runGo (n + 1) l = .err e :: runGo n l' := by
  simp [runGo, h]

theorem runGo_succ_exh {l l' : Lexer} {n : Nat}
    (h : next l = (.exhausted, l')) : runGo (n + 1) l = [.exhausted] := by
  simp [runGo, h]

theorem runGo_succ_fault {l l' : Lexer} {n : Nat}
    (h : next l = (.fault, l')) : runGo (n + 1) l = [.fault] := by
  simp [runGo, h]

theorem slice_chain (src : List Char) (a b : Nat) (hab : a ≤ b) :
    sliceSpan src ⟨a, b⟩ ++ src.drop b = src.drop a := by
  unfold sliceSpan
  conv_rhs => rw [← List.take_append_drop (b - a) (src.drop a)]
  congr 1
  rw [List.drop_drop]
  congr 1
  omega

/-- When a run of pulls yields only tokens and then exhaustion, the tokens
are a chain of adjacent spans from the entry cursor to the end of the
source, their slices concatenate to the unread suffix of the source, and
the sequence terminates with the one terminal EOF token. -/
theorem runGo_tokens (n : Nat) :
    ∀ (st : Lexer) (ts : List Token), st.span.stop ≤ st.source.length →
    st.eof_returned = false →
    runGo n st = ts.map LexStep.tok ++ [LexStep.exhausted] →
    ∃ ts', ts = ts' ++ [⟨.Eof, ⟨st.source.length, st.source.length⟩⟩] ∧
      chainSpans st.span.stop (ts'.map Token.span) st.source.length ∧
      (ts'.map fun t => sliceSpan st.source t.span).flatten = st.source.drop st.span.stop ∧
      ∀ t ∈ ts', t.kind ≠ .Eof := by
  induction n with
  | zero =>
    intro st ts h her hr
    simp only [runGo] at hr
    exact absurd hr.symm (by simp)
  | succ n ih =>
    intro st ts h her hr
    rcases next_cases st h with
      ⟨t, l', hn, hsrc, hstop, hcase⟩ | ⟨c, sp, l', hn, _⟩ | ⟨sp, l', hn, _⟩ |
      ⟨l', hn⟩ | ⟨l', hn, hret, _⟩
    · rw [runGo_succ_tok hn] at hr
      rcases hcase with ⟨hkEof, hspan, hstop0, _, hret', hstop'⟩ |
        ⟨hkNe, hspan, hlt, hret'⟩
      · cases ts with
        | nil => simp at hr
        | cons t0 ts1 =>
          simp only [List.map_cons, List.cons_append, List.cons.injEq,
            LexStep.tok.injEq] at hr
          obtain ⟨ht0, hr1⟩ := hr
          have hex : next l' = (.exhausted,
              { source := l'.source, span := ⟨l'.span.stop, l'.span.stop⟩,
                eof := true, eof_returned := true }) := by
            refine next_end_exh l' ?_ hret'
            rw [hsrc, hstop', hstop0]
          cases n with
          | zero =>
            simp only [runGo] at hr1
            exact absurd hr1.symm (by simp)
          | succ m =>
            rw [runGo_succ_exh hex] at hr1
            have hts1 : ts1 = [] := by
              cases ts1 with
              | nil => rfl
              | cons a b => simp at hr1
            subst hts1
            refine ⟨[], ?_, ?_, ?_, by simp⟩
            · simp only [List.nil_append, List.cons.injEq, and_true]
              rw [← ht0]
              cases t with
              | mk k sp2 =>
                simp only at hkEof hspan
                rw [hkEof, hspan, hstop0]
            · simp only [List.map_nil]
              show st.span.stop = st.source.length
              exact hstop0
            · simp only [List.map_nil, List.flatten_nil]
              rw [hstop0, List.drop_length]
      · cases ts with
        | nil => simp at hr
        | cons t0 ts1 =>
          simp only [List.map_cons, List.cons_append, List.cons.injEq,
            LexStep.tok.injEq] at hr
          obtain ⟨ht0, hr1⟩ := hr
          have hstop2 : l'.span.stop ≤ l'.source.length := by rw [hsrc]; exact hstop
          have hret2 : l'.eof_returned = false := by rw [hret', her]
          obtain ⟨ts', hts, hchain, hjoin, hne⟩ := ih l' ts1 hstop2 hret2 hr1
          rw [hsrc] at hts hchain hjoin
          refine ⟨t :: ts', ?_, ?_, ?_, ?_⟩
          · rw [← ht0, hts]
            simp
          · simp only [List.map_cons]
            refine ⟨?_, ?_⟩
            · rw [hspan]
            · rw [hspan]
              exact hchain
          · simp only [List.map_cons, List.flatten_cons]
            rw [hjoin, hspan]
            exact slice_chain st.source st.span.stop l'.span.stop (Nat.le_of_lt hlt)
          · intro u hu
            rcases List.mem_cons.mp hu with hu | hu
            · rw [hu]; exact hkNe
            · exact hne u hu
    · rw [runGo_succ_err hn] at hr
      cases ts <;> simp at hr
    · rw [runGo_succ_err hn] at hr
      cases ts <;> simp at hr
    · rw [runGo_succ_fault hn] at hr
      cases ts <;> simp at hr
    · rw [her] at hret
      exact Bool.noConfusion hret

/-- When a run of pulls contains the UnexpectedEof error, everything
before it is a non-terminal token or an invalid-character error, and it is
immediately followed by the terminal EOF token and then exhaustion. -/
theorem runGo_ueof (n : Nat) :
    ∀ st : Lexer, st.span.stop ≤ st.source.length → st.eof_returned = false →
    st.source.length - st.span.stop + 2 ≤ n →
    (runGo n st).any isUeofStep = true →
    ∃ pre sp, runGo n st = pre ++ [.err ⟨.UnexpectedEof, sp⟩,
      .tok ⟨.Eof, ⟨st.source.length, st.source.length⟩⟩, .exhausted] ∧
    ∀ x ∈ pre, isBenign x := by
  induction n with
  | zero =>
    intro st _ _ hf _
    omega
  | succ n ih =>
    intro st h her hf hany
    rcases next_cases st h with
      ⟨t, l', hn, hsrc, hstop, hcase⟩ |
      ⟨c, sp, l', hn, hsrc, hstop', hlt, hle, heof, hret, hg⟩ |
      ⟨sp, l', hn, hsrc, hstop', hlt, heof, hret⟩ | ⟨l', hn⟩ | ⟨l', hn, hret, _⟩
    · rw [runGo_succ_tok hn] at hany ⊢
      rcases hcase with ⟨hkEof, hspan, hstop0, _, hret', hstop2⟩ |
        ⟨hkNe, hspan, hlt, hret'⟩
      · have hex := next_end_exh l' (by rw [hsrc, hstop2, hstop0]) hret'
        cases n with
        | zero => omega
        | succ m =>
          rw [runGo_succ_exh hex] at hany
          simp [isUeofStep] at hany
      · simp only [List.any_cons, isUeofStep, Bool.false_or] at hany
        have hstopl : l'.span.stop ≤ l'.source.length := by rw [hsrc]; exact hstop
        have hretl : l'.eof_returned = false := hret'.trans her
        have hfu : l'.source.length - l'.span.stop + 2 ≤ n := by
          rw [hsrc]; omega
        obtain ⟨pre, sp, hre, hb⟩ := ih l' hstopl hretl hfu hany
        rw [hsrc] at hre
        refine ⟨.tok t :: pre, sp, by rw [hre]; simp, ?_⟩
        intro x hx
        rcases List.mem_cons.mp hx with hx | hx
        · exact Or.inl ⟨t, hx, hkNe⟩
        · exact hb x hx
    · rw [runGo_succ_err hn] at hany ⊢
      simp only [List.any_cons, isUeofStep, Bool.false_or] at hany
      have hstopl : l'.span.stop ≤ l'.source.length := by rw [hsrc]; exact hle
      have hretl : l'.eof_returned = false := hret.trans her
      have hfu : l'.source.length - l'.span.stop + 2 ≤ n := by
        rw [hsrc, hstop']; omega
      obtain ⟨pre, sp2, hre, hb⟩ := ih l' hstopl hretl hfu hany
      rw [hsrc] at hre
      refine ⟨.err ⟨.InvalidCharacter c, sp⟩ :: pre, sp2, by rw [hre]; simp, ?_⟩
      intro x hx
      rcases List.mem_cons.mp hx with hx | hx
      · exact Or.inr ⟨c, sp, hx⟩
      · exact hb x hx
    · have hretl : l'.eof_returned = false := hret.trans her
      have hn1 := next_end_tok l' (by rw [hsrc, hstop']) hretl
      cases n with
      | zero => omega
      | succ m =>
        cases m with
        | zero => omega
        | succ m2 =>
          rw [runGo_succ_err hn, runGo_succ_tok hn1]
          have hex2 : next ({ source := l'.source, span := ⟨l'.span.stop, l'.span.stop⟩, eof := true, eof_returned := true } : Lexer) =
              (.exhausted, { source := l'.source, span := ⟨l'.span.stop, l'.span.stop⟩, eof := true, eof_returned := true }) := by
            exact next_end_exh _ (by simp [hsrc, hstop']) rfl
          rw [runGo_succ_exh hex2]
          refine ⟨[], sp, ?_, by simp⟩
          rw [hstop']
          simp
    · rw [runGo_succ_fault hn] at hany
      simp [isUeofStep] at hany
    · rw [her] at hret
      exact Bool.noConfusion hret

/-- C1: on any source whose whole outcome sequence is successful tokens
followed by exhaustion, the token spans tile the source: the first starts
at offset 0, each starts where the previous stopped, the last non-EOF
token stops at the source length, the slices concatenate to exactly the
source, and the sequence ends with the one terminal EOF token carrying the
empty span at the end position. -/
theorem claim_C1 (src : List Char) (ts : List Token)
    (h : lexRun src = ts.map LexStep.tok ++ [LexStep.exhausted]) :
    ∃ ts', ts = ts' ++ [⟨.Eof, ⟨src.length, src.length⟩⟩] ∧
      chainSpans 0 (ts'.map Token.span) src.length ∧
      (ts'.map fun t => sliceSpan src t.span).flatten = src ∧
      ∀ t ∈ ts', t.kind ≠ .Eof := by
  have hr := runGo_tokens (src.length + 2) (initLexer src) ts
    (by simp [initLexer]) rfl h
  simpa [initLexer] using hr

/-- Witness for C1 at the source text 123 space plus. -/
theorem claim_C1_witness :
    (lexRun ("123 +".toList) =
      ([⟨.Num 123, ⟨0, 3⟩⟩, ⟨.Whitespace, ⟨3, 4⟩⟩, ⟨.Add, ⟨4, 5⟩⟩,
        ⟨.Eof, ⟨5, 5⟩⟩] : List Token).map LexStep.tok ++ [LexStep.exhausted]) ∧
    (∃ ts', ([⟨.Num 123, ⟨0, 3⟩⟩, ⟨.Whitespace, ⟨3, 4⟩⟩, ⟨.Add, ⟨4, 5⟩⟩,
        ⟨.Eof, ⟨5, 5⟩⟩] : List Token) =
        ts' ++ [⟨.Eof, ⟨("123 +".toList).length, ("123 +".toList).length⟩⟩] ∧
      chainSpans 0 (ts'.map Token.span) ("123 +".toList).length ∧
      (ts'.map fun t => sliceSpan ("123 +".toList) t.span).flatten = "123 +".toList ∧
      ∀ t ∈ ts', t.kind ≠ .Eof) :=
  ⟨by decide, claim_C1 _ _ (by decide)⟩

/-- C2 (failing input): on the one-character source a, the very first pull
faults with an out-of-bounds slice (the colon-demotion lookahead reads
source[7..8] of a length-1 buffer), so the terminal EOF token is never
produced even though the input does not end inside an unterminated string
literal. -/
theorem claim_C2 :
    lexRun ("a".toList) = [.fault] ∧
    (∀ t : Token, LexStep.tok t ∉ lexRun ("a".toList)) := by
  refine ⟨by decide, ?_⟩
  intro t ht
  rw [show lexRun ("a".toList) = [.fault] from by decide] at ht
  simp at ht

/-- C3 counterexample: the source dollar double-quote a ends inside an
unterminated string literal, but its outcome sequence carries an
invalid-character error before the UnexpectedEof error, so it is not of
the shape zero-or-more tokens, UnexpectedEof, EOF token, exhaustion. -/
theorem claim_C3_counterexample :
    lexRun ("$\"a".toList) =
      [.err ⟨.InvalidCharacter '$', ⟨0, 1⟩⟩, .err ⟨.UnexpectedEof, ⟨1, 3⟩⟩,
       .tok ⟨.Eof, ⟨3, 3⟩⟩, .exhausted] ∧
    c3shape (lexRun ("$\"a".toList)) = false := by decide

/-- C3 (amended): whenever the outcome sequence contains the UnexpectedEof
error, every outcome before it is a non-terminal token or an
invalid-character error, the UnexpectedEof error occurs exactly once, the
very next pull yields the terminal EOF token (the failed literal is never
re-attempted), and the sequence then ends with exhaustion. -/
theorem claim_C3 (src : List Char)
    (h : (lexRun src).any isUeofStep = true) :
    ∃ pre sp, lexRun src = pre ++ [.err ⟨.UnexpectedEof, sp⟩,
      .tok ⟨.Eof, ⟨src.length, src.length⟩⟩, .exhausted] ∧
    ∀ x ∈ pre, isBenign x := by
  have hr := runGo_ueof (src.length + 2) (initLexer src)
    (by simp [initLexer]) rfl (by simp [initLexer]) h
  simpa [initLexer] using hr

/-- Witness for C3 at the source dollar double-quote a. -/
theorem claim_C3_witness :
    (lexRun ("$\"a".toList)).any isUeofStep = true ∧
    (∃ pre sp, lexRun ("$\"a".toList) = pre ++ [.err ⟨.UnexpectedEof, sp⟩,
      .tok ⟨.Eof, ⟨("$\"a".toList).length, ("$\"a".toList).length⟩⟩, .exhausted] ∧
    ∀ x ∈ pre, isBenign x) :=
  ⟨by decide, claim_C3 _ (by decide)⟩

/-- C4 (failing input): on the source space takes colon, the keyword takes
spans offsets 1 to 6 and is immediately followed by a colon, yet it is
classified as the Takes keyword, because the demotion check reads the
character at absolute offset 5 (the keyword length) instead of the
character after the keyword; at offset 0 (source takes colon) the demotion
does fire and yields an identifier. -/
theorem claim_C4 :
    lexRun (" takes:".toList) =
      [.tok ⟨.Whitespace, ⟨0, 1⟩⟩, .tok ⟨.Takes, ⟨1, 6⟩⟩,
       .err ⟨.InvalidCharacter ':', ⟨6, 7⟩⟩, .tok ⟨.Eof, ⟨7, 7⟩⟩, .exhausted] ∧
    (" takes:".toList).get? 6 = some ':' ∧
    lexRun ("takes:".toList) =
      [.tok ⟨.Ident ("takes".toList), ⟨0, 5⟩⟩,
       .err ⟨.InvalidCharacter ':', ⟨5, 6⟩⟩,
       .tok ⟨.Eof, ⟨6, 6⟩⟩, .exhausted] := by decide

/-- C5 (failing input): on the source takes, the matched keyword ends
exactly at end of input and the colon-demotion lookahead slices
source[5..6] of a length-5 buffer, an out-of-bounds fault, so produce-next
does not return normally. -/
theorem claim_C5 : lexRun ("takes".toList) = [.fault] := by decide

/-- Conclusion of C10: an invalid-character error leaves the cursor one
past the offending character (which sits at the pre-pull cursor position)
with both flags unchanged, so the next pull dispatches normally from the
following character; only the UnexpectedEof error forces the eof flag. -/
def invalidErrorResumes (l l' : Lexer) (e : LexicalError) : Prop :=
  (∀ c, e.kind = .InvalidCharacter c →
    l'.span.stop = l.span.stop + 1 ∧ l'.source = l.source ∧ l'.eof = l.eof ∧
    l'.eof_returned = l.eof_returned ∧ l.source.get? l.span.stop = some c) ∧
  (e.kind = .UnexpectedEof →
    l'.eof = true ∧ l'.span.stop = l.source.length ∧
    l'.eof_returned = l.eof_returned)

/-- C10: whenever a pull returns an error, an invalid-character error has
already advanced the cursor past the offending character and leaves both
flags alone (so lexing resumes at the next character), while only the
UnexpectedEof error forces the eof flag (with the cursor at end of
input). -/
theorem claim_C10 (l l' : Lexer) (e : LexicalError)
    (h : l.span.stop ≤ l.source.length) (hn : next l = (.err e, l')) :
    invalidErrorResumes l l' e := by
  unfold invalidErrorResumes
  rcases next_cases l h with
    ⟨t, l2, hn2, _⟩ | ⟨c, sp, l2, hn2, hsrc, hstop, hlt, hle, heof, hret, hg⟩ |
    ⟨sp, l2, hn2, hsrc, hstop, hlt, heof, hret⟩ | ⟨l2, hn2⟩ | ⟨l2, hn2, _, _⟩
  · rw [hn] at hn2; simp at hn2
  · rw [hn] at hn2
    simp only [Prod.mk.injEq, LexStep.err.injEq] at hn2
    obtain ⟨he, hl⟩ := hn2
    subst hl
    constructor
    · intro c0 hc0
      rw [he] at hc0
      simp only [LexicalErrorKind.InvalidCharacter.injEq] at hc0
      subst hc0
      exact ⟨hstop, hsrc, heof, hret, hg⟩
    · intro hc0
      rw [he] at hc0
      simp at hc0
  · rw [hn] at hn2
    simp only [Prod.mk.injEq, LexStep.err.injEq] at hn2
    obtain ⟨he, hl⟩ := hn2
    subst hl
    constructor
    · intro c0 hc0
      rw [he] at hc0
      simp at hc0
    · intro _
      exact ⟨heof, hstop, hret⟩
  · rw [hn] at hn2; simp at hn2
  · rw [hn] at hn2; simp at hn2

/-- Witness for C10 at the source dollar. -/
theorem claim_C10_witness :
    ((initLexer ("$".toList)).span.stop ≤ (initLexer ("$".toList)).source.length ∧
      next (initLexer ("$".toList)) =
        (.err ⟨.InvalidCharacter '$', ⟨0, 1⟩⟩,
          ⟨"$".toList, ⟨0, 1⟩, false, false⟩)) ∧
    invalidErrorResumes (initLexer ("$".toList))
      ⟨"$".toList, ⟨0, 1⟩, false, false⟩ ⟨.InvalidCharacter '$', ⟨0, 1⟩⟩ :=
  ⟨⟨by decide, by decide⟩, claim_C10 _ _ _ (by decide) (by decide)⟩

/-- C7 counterexample: with span 0 to 1 over the source hash-define,
peeknchars 6 returns the whole seven-character slice from span.start, not
the six-character substring starting at the span's end (which would be
define). -/
theorem claim_C7_counterexample :
    peeknchars (⟨"#define".toList, ⟨0, 1⟩, false, false⟩ : Lexer) 6 =
      "#define".toList ∧
    windowAt ("#define".toList) 1 6 = "define".toList ∧
    "#define".toList ≠ "define".toList := by decide

/-- C7 (amended): peeknchars n returns the source slice of the current
span extended n characters to the right, that is the current span's text
followed by the n-character window at the cursor, or the empty string when
span.end + n runs past the buffer; under the span invariant
start less-or-equal end it never slices out of bounds. -/
theorem claim_C7 (l : Lexer) (n : Nat) (h : l.span.start ≤ l.span.stop) :
    peeknchars l n =
      if l.span.stop + n ≤ l.source.length
      then sliceSpan l.source l.span ++ windowAt l.source l.span.stop n
      else [] := by
  unfold peeknchars sliceSpan windowAt
  by_cases hb : l.span.stop + n > l.source.length
  · rw [if_pos hb, if_neg (by omega)]
  · rw [if_neg hb, if_pos (by omega)]
    rw [show l.span.stop + n - l.span.start = (l.span.stop - l.span.start) + n by omega]
    rw [List.take_add]
    have h2 : (l.source.drop l.span.start).drop (l.span.stop - l.span.start) =
        l.source.drop l.span.stop := by
      rw [List.drop_drop]
      congr 1
      omega
    rw [h2]

/-- Witness for C7 at span 0 to 1 over the source hash-define with n 6. -/
theorem claim_C7_witness :
    (⟨"#define".toList, ⟨0, 1⟩, false, false⟩ : Lexer).span.start ≤
      (⟨"#define".toList, ⟨0, 1⟩, false, false⟩ : Lexer).span.stop ∧
    peeknchars (⟨"#define".toList, ⟨0, 1⟩, false, false⟩ : Lexer) 6 =
      (if (⟨"#define".toList, ⟨0, 1⟩, false, false⟩ : Lexer).span.stop + 6 ≤
          (⟨"#define".toList, ⟨0, 1⟩, false, false⟩ : Lexer).source.length
       then sliceSpan (⟨"#define".toList, ⟨0, 1⟩, false, false⟩ : Lexer).source
              (⟨"#define".toList, ⟨0, 1⟩, false, false⟩ : Lexer).span ++
            windowAt (⟨"#define".toList, ⟨0, 1⟩, false, false⟩ : Lexer).source
              (⟨"#define".toList, ⟨0, 1⟩, false, false⟩ : Lexer).span.stop 6
       else []) :=
  ⟨by decide, claim_C7 _ 6 (by decide)⟩

/-- C8 counterexample: with span.start 3 over the source abcde,
try_look_back 2 returns the single character b, not the two-character
substring bc ending just before span.start. -/
theorem claim_C8_counterexample :
    try_look_back (⟨"abcde".toList, ⟨3, 3⟩, false, false⟩ : Lexer) 2 =
      some ['b'] ∧
    windowAt ("abcde".toList) 1 2 = ['b', 'c'] ∧
    (some ['b'] : Option (List Char)) ≠ some ['b', 'c'] := by decide

/-- C8 (amended): for positive n with span.start in bounds, try_look_back
returns the empty string when span.start - n would underflow, and
otherwise the substring of length n - 1 starting at span.start - n (so it
stops one character short of span.start); it never faults for such n. -/
theorem claim_C8 (l : Lexer) (n : Nat) (h1 : 1 ≤ n)
    (h2 : l.span.start ≤ l.source.length) :
    try_look_back l n =
      some (if n ≤ l.span.start
            then windowAt l.source (l.span.start - n) (n - 1)
            else []) := by
  unfold try_look_back peekncharsfrom windowAt
  rw [if_neg (by omega)]
  by_cases hc : n ≤ l.span.start
  · rw [if_pos hc, if_pos hc, if_pos (by omega)]
  · rw [if_neg hc, if_neg hc]

/-- Witness for C8 at span.start 3 over the source abcde with n 2. -/
theorem claim_C8_witness :
    (1 : Nat) ≤ 2 ∧
    (⟨"abcde".toList, ⟨3, 3⟩, false, false⟩ : Lexer).span.start ≤
      (⟨"abcde".toList, ⟨3, 3⟩, false, false⟩ : Lexer).source.length ∧
    try_look_back (⟨"abcde".toList, ⟨3, 3⟩, false, false⟩ : Lexer) 2 =
      some (if 2 ≤ (⟨"abcde".toList, ⟨3, 3⟩, false, false⟩ : Lexer).span.start
            then windowAt (⟨"abcde".toList, ⟨3, 3⟩, false, false⟩ : Lexer).source
                   ((⟨"abcde".toList, ⟨3, 3⟩, false, false⟩ : Lexer).span.start - 2) 1
            else []) :=
  ⟨by decide, by decide, claim_C8 _ 2 (by decide) (by decide)⟩

/-- Full characterization of the seq_consume loop when the cursor leads
the scanned window position by exactly the word length (as at its one call
site, where the span already covers the opening marker): the loop never
faults, preserves all fields but the cursor, and stops either at end of
input with no matching window among those it checked (all k at least cp
with k + word-length strictly below the length), or with the cursor just
after the first matching window. -/
theorem seq_go_spec (w : List Char) (fuel : Nat) :
    ∀ (cp : Nat) (l : Lexer), l.span.stop = cp + w.length →
    l.span.stop ≤ l.source.length →
    l.source.length - l.span.stop + 1 ≤ fuel →
    ∃ l', seq_consume_go w fuel cp l = some l' ∧ l'.source = l.source ∧
      l'.span.start = l.span.start ∧ l'.eof = l.eof ∧
      l'.eof_returned = l.eof_returned ∧ l.span.stop ≤ l'.span.stop ∧
      l'.span.stop ≤ l.source.length ∧
      ((l'.span.stop = l.source.length ∧
        ∀ k, cp ≤ k → k + w.length < l.source.length →
          windowAt l.source k w.length ≠ w) ∨
       (l'.span.stop < l.source.length ∧
        windowAt l.source (l'.span.stop - w.length) w.length = w ∧
        ∀ k, cp ≤ k → k + w.length < l'.span.stop →
          windowAt l.source k w.length ≠ w)) := by
  induction fuel with
  | zero =>
    intro cp l _ _ hf
    omega
  | succ n ih =>
    intro cp l hlag hle hf
    unfold seq_consume_go
    cases hp : peek l with
    | none =>
      have hlen : l.source.length ≤ l.span.stop := List.get?_eq_none.mp hp
      have heq : l.span.stop = l.source.length := Nat.le_antisymm hle hlen
      refine ⟨l, rfl, rfl, rfl, rfl, rfl, Nat.le_refl _, hle, Or.inl ⟨heq, ?_⟩⟩
      intro k hk hklen
      exfalso
      omega
    | some c =>
      have hp' : l.source.get? l.span.stop = some c := hp
      have hlt : l.span.stop < l.source.length := by
        by_contra hcon
        rw [List.get?_eq_none.mpr (Nat.le_of_not_lt hcon)] at hp'
        exact Option.noConfusion hp'
      have hwin : peekncharsfrom l w.length cp =
          some (windowAt l.source cp w.length) := by
        unfold peekncharsfrom windowAt
        rw [if_pos (by omega)]
      simp only [hwin]
      by_cases hw : w = windowAt l.source cp w.length
      · rw [if_pos hw]
        refine ⟨l, rfl, rfl, rfl, rfl, rfl, Nat.le_refl _, hle,
          Or.inr ⟨hlt, ?_, ?_⟩⟩
        · rw [show l.span.stop - w.length = cp from by omega]
          exact hw.symm
        · intro k hk hklt
          exfalso
          omega
      · rw [if_neg hw]
        have hcs : consume l =
            (some c, { l with span := ⟨l.span.start, l.span.stop + 1⟩ }) := by
          have hg2 : l.source[l.span.stop]? = some c := by
            rw [← List.get?_eq_getElem?]
            exact hp'
          simp [consume, hp', hg2]
        rw [hcs]
        obtain ⟨l', hseq, hsrc, hstart, heof, hret, hup, hub, hdisj⟩ :=
          ih (cp + 1) { l with span := ⟨l.span.start, l.span.stop + 1⟩ }
            (by simp; omega) (by simp; omega) (by simp; omega)
        refine ⟨l', hseq, hsrc, hstart, heof, hret, ?_, hub, ?_⟩
        · simp at hup
          omega
        · rcases hdisj with ⟨hstop, hall⟩ | ⟨hstop, hmatch, hall⟩
          · refine Or.inl ⟨hstop, ?_⟩
            intro k hk hklen
            rcases Nat.eq_or_lt_of_le hk with hkc | hkc
            · rw [← hkc]
              intro hcontra
              exact hw hcontra.symm
            · exact hall k hkc hklen
          · refine Or.inr ⟨hstop, hmatch, ?_⟩
            intro k hk hklt
            rcases Nat.eq_or_lt_of_le hk with hkc | hkc
            · rw [← hkc]
              intro hcontra
              exact hw hcontra.symm
            · exact hall k hkc hklt

/-- C9 counterexample: with the span covering offsets 0 to 2 of the
source ab-star-slash-cd and the marker star-slash, seq_consume stops with
the cursor at offset 4, immediately after the marker occurrence at
offsets 2 to 4, not immediately before it (which would be offset 2). -/
theorem claim_C9_counterexample :
    seq_consume ("*/".toList) (⟨"ab*/cd".toList, ⟨0, 2⟩, false, false⟩ : Lexer) =
      some (⟨"ab*/cd".toList, ⟨0, 4⟩, false, false⟩ : Lexer) ∧
    windowAt ("ab*/cd".toList) 2 2 = "*/".toList ∧
    (∀ j < 2, windowAt ("ab*/cd".toList) j 2 ≠ "*/".toList) ∧
    (4 : Nat) ≠ 2 := by
  refine ⟨by decide, by decide, ?_, by decide⟩
  decide

/-- C9 (amended): called with the cursor leading span.start by exactly the
marker length (as at its call site, where the span already covers the
opening marker of the same length), seq_consume advances one character at
a time comparing the window that trails the cursor by the marker length,
and stops either at end of input (no window among those checked matched)
or with the cursor immediately after the first matching window; it never
stops immediately before the marker. -/
theorem claim_C9 (l : Lexer) (w : List Char)
    (hpos : l.span.stop = l.span.start + w.length)
    (hlen : l.span.stop ≤ l.source.length) :
    ∃ l', seq_consume w l = some l' ∧ l'.source = l.source ∧
      l'.span.start = l.span.start ∧ l'.eof = l.eof ∧
      l'.eof_returned = l.eof_returned ∧ l.span.stop ≤ l'.span.stop ∧
      l'.span.stop ≤ l.source.length ∧
      ((l'.span.stop = l.source.length ∧
        ∀ k, l.span.start ≤ k → k + w.length < l.source.length →
          windowAt l.source k w.length ≠ w) ∨
       (l'.span.stop < l.source.length ∧
        windowAt l.source (l'.span.stop - w.length) w.length = w ∧
        ∀ k, l.span.start ≤ k → k + w.length < l'.span.stop →
          windowAt l.source k w.length ≠ w)) :=
  seq_go_spec w (l.source.length + 1) l.span.start l hpos hlen (by omega)

/-- Witness for C9 at span 0 to 2 over the source ab-star-slash-cd with
the marker star-slash. -/
theorem claim_C9_witness :
    ((⟨"ab*/cd".toList, ⟨0, 2⟩, false, false⟩ : Lexer).span.stop =
      (⟨"ab*/cd".toList, ⟨0, 2⟩, false, false⟩ : Lexer).span.start +
        ("*/".toList).length ∧
     (⟨"ab*/cd".toList, ⟨0, 2⟩, false, false⟩ : Lexer).span.stop ≤
      (⟨"ab*/cd".toList, ⟨0, 2⟩, false, false⟩ : Lexer).source.length) ∧
    (∃ l', seq_consume ("*/".toList)
        (⟨"ab*/cd".toList, ⟨0, 2⟩, false, false⟩ : Lexer) = some l' ∧
      l'.source = "ab*/cd".toList ∧ l'.span.start = 0 ∧ l'.eof = false ∧
      l'.eof_returned = false ∧ 2 ≤ l'.span.stop ∧
      l'.span.stop ≤ ("ab*/cd".toList).length ∧
      ((l'.span.stop = ("ab*/cd".toList).length ∧
        ∀ k, 0 ≤ k → k + ("*/".toList).length < ("ab*/cd".toList).length →
          windowAt ("ab*/cd".toList) k ("*/".toList).length ≠ "*/".toList) ∨
       (l'.span.stop < ("ab*/cd".toList).length ∧
        windowAt ("ab*/cd".toList) (l'.span.stop - ("*/".toList).length)
          ("*/".toList).length = "*/".toList ∧
        ∀ k, 0 ≤ k → k + ("*/".toList).length < l'.span.stop →
          windowAt ("ab*/cd".toList) k ("*/".toList).length ≠ "*/".toList))) :=
  ⟨⟨by decide, by decide⟩, claim_C9 _ _ (by decide) (by decide)⟩

/-- C6 counterexample: on the source slash-star-x, which reaches end of
input inside a block comment, the lexer produces a Comment token covering
the whole source and then the terminal EOF token; no lexical error of any
kind is reported. -/
theorem claim_C6_counterexample :
    lexRun ("/*x".toList) =
      [.tok ⟨.Comment ("/*x".toList), ⟨0, 3⟩⟩, .tok ⟨.Eof, ⟨3, 3⟩⟩,
       .exhausted] ∧
    (∀ e : LexicalError, LexStep.err e ∉ lexRun ("/*x".toList)) := by
  refine ⟨by decide, ?_⟩
  intro e he
  rw [show lexRun ("/*x".toList) =
    [.tok ⟨.Comment ("/*x".toList), ⟨0, 3⟩⟩, .tok ⟨.Eof, ⟨3, 3⟩⟩,
     .exhausted] from by decide] at he
  simp at he

/-- C6 (amended): when the source opens a block comment whose closing
marker never occurs strictly inside the remaining text, the first pull
produces a Comment token spanning the whole source (consuming through end
of input) with the eof flag set, not an unterminated-literal error; only
quoted string literals produce UnexpectedEof. -/
theorem claim_C6 (src rest : List Char) (hsrc : src = '/' :: '*' :: rest)
    (hno : ∀ k < src.length, k + 2 < src.length → windowAt src k 2 ≠ ['*', '/']) :
    next (initLexer src) =
      (.tok ⟨.Comment src, ⟨0, src.length⟩⟩,
        ⟨src, ⟨0, src.length⟩, true, false⟩) := by
  have hg0 : src.get? 0 = some '/' := by rw [hsrc]; rfl
  have hg1 : src.get? 1 = some '*' := by rw [hsrc]; rfl
  have hg0e : src[(0 : Nat)]? = some '/' := by
    rw [← List.get?_eq_getElem?]; exact hg0
  have hg1e : src[(1 : Nat)]? = some '*' := by
    rw [← List.get?_eq_getElem?]; exact hg1
  have hlen2 : 2 ≤ src.length := by rw [hsrc]; simp
  obtain ⟨⟨s3, ⟨a3, b3⟩, e3, r3⟩, hseq, hsrc3, hstart3, heof3, hret3, hup3, hub3, hdisj⟩ :=
    seq_go_spec ['*', '/'] (src.length + 1) 0
      (⟨src, ⟨0, 2⟩, false, false⟩ : Lexer) rfl hlen2
      (by show src.length - 2 + 1 ≤ src.length + 1; omega)
  have hs3 : s3 = src := hsrc3
  have ha3 : a3 = 0 := hstart3
  have he3 : e3 = false := heof3
  have hr3 : r3 = false := hret3
  have hup : (2 : Nat) ≤ b3 := hup3
  have hub : b3 ≤ src.length := hub3
  have hstop3 : b3 = src.length := by
    rcases hdisj with ⟨hstop, _⟩ | ⟨hstop, hmatch, _⟩
    · exact hstop
    · exfalso
      have hst : b3 < src.length := hstop
      have hm : windowAt src (b3 - 2) 2 = ['*', '/'] := hmatch
      exact hno (b3 - 2) (by omega) (by omega) hm
  have hseq' : seq_consume_go ['*', '/'] (src.length + 1) 0
      (⟨src, ⟨0, 2⟩, false, false⟩ : Lexer) =
      some (⟨src, ⟨0, src.length⟩, false, false⟩ : Lexer) := by
    rw [hseq, hs3, ha3, he3, hr3, hstop3]
  clear hseq hdisj hsrc3 hstart3 heof3 hret3 hup3 hub3
  have hc0 : consume (reset (initLexer src)) =
      (some '/', (⟨src, ⟨0, 1⟩, false, false⟩ : Lexer)) := by
    simp [initLexer, reset, consume, hg0, hg0e]
  have hc1 : consume (⟨src, ⟨0, 1⟩, false, false⟩ : Lexer) =
      (some '*', (⟨src, ⟨0, 2⟩, false, false⟩ : Lexer)) := by
    simp [consume, hg1, hg1e]
  have hsl : slice (⟨src, ⟨0, src.length⟩, false, false⟩ : Lexer) = src := by
    simp [slice]
  have htk : tokenize '/' (⟨src, ⟨0, 1⟩, false, false⟩ : Lexer) =
      .kind (.Comment src) (⟨src, ⟨0, src.length⟩, false, false⟩ : Lexer) := by
    show slashBranch (⟨src, ⟨0, 1⟩, false, false⟩ : Lexer) = _
    unfold slashBranch
    simp [show peek (⟨src, ⟨0, 1⟩, false, false⟩ : Lexer) = some '*' from hg1,
      hc1,
      show seq_consume ['*', '/'] (⟨src, ⟨0, 2⟩, false, false⟩ : Lexer) =
        some (⟨src, ⟨0, src.length⟩, false, false⟩ : Lexer) from hseq',
      hsl]
  have hpk : peek (⟨src, ⟨0, src.length⟩, false, false⟩ : Lexer) = none := by
    simp [peek, List.get?_eq_none.mpr (Nat.le_refl _)]
  simp only [next, hc0, htk, hpk]
  simp

/-- Witness for C6 at the source slash-star-x. -/
theorem claim_C6_witness :
    ("/*x".toList = '/' :: '*' :: "x".toList) ∧
    (∀ k < ("/*x".toList).length, k + 2 < ("/*x".toList).length →
      windowAt ("/*x".toList) k 2 ≠ ['*', '/']) ∧
    next (initLexer ("/*x".toList)) =
      (.tok ⟨.Comment ("/*x".toList), ⟨0, ("/*x".toList).length⟩⟩,
        ⟨"/*x".toList, ⟨0, ("/*x".toList).length⟩, true, false⟩) :=
  ⟨by decide, by decide, claim_C6 ("/*x".toList) ("x".toList) (by decide) (by decide)⟩

end HuffLexer
